import Mathlib

/-!
Shallow embedding of the mid-circuit measurement value algebra of
`pennylane/measurements/mid_measure.py` and of the AutoGraph conditional
primitives of `pennylane/capture/autograph/ag_primitives.py`, together with
theorems settling the specification claims about them.

Modelling conventions:
* Python bits are `int` values `0`/`1`; they are modelled as `Nat`.
* A measurement's `id` is a `uuid4` string used only as a globally unique,
  orderable sort/dedup token; it is modelled as a `Nat` token.
* A `processing_fn` takes one positional argument per dependency; it is
  modelled as a total function `List Nat → T` receiving the branch tuple.
-/


/-- The value `natToBits n i` is the `n`-bit binary representation of `i % 2 ^ n`,
most significant bit first: the counterpart of the branch tuple
`tuple(int(b) for b in f"{i:0{n}b}")` built by `MeasurementValue.items`
for `i < 2 ^ n` and `n ≥ 1`. -/
def natToBits : Nat → Nat → List Nat
  | 0, _ => []
  | n + 1, i => (i / 2 ^ n % 2) :: natToBits n i

/-- Python's format `f"{i:0{n}b}"` pads to width `n` but always prints at
least one digit, so for width `0` (a value with no dependencies) the branch
tuple is `(0,)`, not `()`.  `pyBits` models this exactly for `i < 2 ^ n`. -/
def pyBits (n i : Nat) : List Nat := natToBits (max n 1) i

/-- The numeric value of a most-significant-bit-first bit string. -/
def bitsToNat (bs : List Nat) : Nat := bs.foldl (fun a b => 2 * a + b) 0

/-- A mid-circuit measurement record (`MidMeasureMP` in
`pennylane/measurements/mid_measure.py`).  `wires` are the target wire
labels, `reset` and `postselect` are the constructor arguments, and `id`
is the `uuid4` identity token (modelled as a `Nat` ordered the way the
uuid strings are ordered by Python's string comparison).  Two records are
the same element of a Python `set` exactly when their hash fingerprint
`(class name, wires, id)` and their attribute-wise equality agree, which
for records of this one class is structural equality of all four fields;
`deriving DecidableEq` models that. -/
structure MidMeasureMP where
  wires : List Nat
  reset : Bool
  postselect : Option Nat
  id : Nat
deriving DecidableEq, Repr

/-- Wire remapping `MidMeasureMP.map_wires`, inherited from `MeasurementProcess`.
Modelled from the spec: the scanned sources contain only callers of this
method; per the spec (section 4.1) wire-remapping returns a new record
sharing the same `reset`/`postselect` attributes and the same identity
token, with the wires sent through the wire map. -/
def MidMeasureMP.map_wires (m : MidMeasureMP) (wire_map : Nat → Nat) : MidMeasureMP :=
  { m with wires := m.wires.map wire_map }

/-- A symbolic measurement value (`MeasurementValue` in
`pennylane/measurements/mid_measure.py`): an ordered dependency list of
measurement records plus a lazy combining function.  The Python
`processing_fn` takes one positional `0`/`1` argument per dependency; it
is modelled as a total function on the branch tuple. -/
structure MeasurementValue (T : Type) where
  measurements : List MidMeasureMP
  processing_fn : List Nat → T

/-- The dependency ordering used by `MeasurementValue._merge`:
`merged_measurements.sort(key=lambda m: m.id)`. -/
def mLeById (m m' : MidMeasureMP) : Prop := m.id ≤ m'.id

instance : DecidableRel mLeById := fun m m' => Nat.decLe m.id m'.id

instance : IsTotal MidMeasureMP mLeById :=
  ⟨fun m m' => Nat.le_total m.id m'.id⟩

instance : IsTrans MidMeasureMP mLeById :=
  ⟨fun _ _ _ h h' => Nat.le_trans h h'⟩

/-- The merged dependency list of `MeasurementValue._merge`:
`list(set(self.measurements).union(set(other.measurements)))` followed by
`.sort(key=lambda m: m.id)`.  The Python set union is deduplication with
unspecified iteration order; it is modelled as `List.dedup` on the
concatenation, followed by a stable sort on the identity token (Python's
`list.sort` is stable).  Whenever the identity tokens of distinct records
are distinct — the data-model invariant — the result is independent of
the unspecified set order. -/
def mergedList (l₁ l₂ : List MidMeasureMP) : List MidMeasureMP :=
  List.insertionSort mLeById (l₁ ++ l₂).dedup

/-- The merge operation `MeasurementValue._merge`: the merged dependency list together with the
re-indexed pairing combining function
`merged_fn(*x) = (f(x at indices of self), g(x at indices of other))`,
where each index is `merged_measurements.index(m)`.  The out-of-range
default `0` of `List.getD` is never reached for branch tuples of the
merged length. -/
def MeasurementValue._merge {T₁ T₂ : Type} (s : MeasurementValue T₁)
    (o : MeasurementValue T₂) : MeasurementValue (T₁ × T₂) :=
  { measurements := mergedList s.measurements o.measurements
    processing_fn := fun x =>
      (s.processing_fn (s.measurements.map (fun m =>
          x.getD ((mergedList s.measurements o.measurements).indexOf m) 0)),
       o.processing_fn (o.measurements.map (fun m =>
          x.getD ((mergedList s.measurements o.measurements).indexOf m) 0))) }

/-- The unary transform `MeasurementValue._apply`: same dependencies, post-composed combining
function. -/
def MeasurementValue._apply {T S : Type} (mv : MeasurementValue T)
    (fn : T → S) : MeasurementValue S :=
  { measurements := mv.measurements
    processing_fn := fun x => fn (mv.processing_fn x) }

/-- Logical negation `MeasurementValue.__invert__`: `self._apply(qml.math.logical_not)`. -/
def MeasurementValue.inv (mv : MeasurementValue Bool) : MeasurementValue Bool :=
  mv._apply (fun b => !b)

/-- Logical conjunction `MeasurementValue.__and__`: `self._merge(other)._apply(logical_and)`. -/
def MeasurementValue.and (a b : MeasurementValue Bool) : MeasurementValue Bool :=
  (a._merge b)._apply (fun t => t.1 && t.2)

/-- Concretization `MeasurementValue.concretize`: evaluate the combining function on the
bit each dependency is mapped to.  The Python argument is a dict from
record to concrete bit and raises on a missing key; the claims only use
total mappings, modelled as a total function. -/
def MeasurementValue.concretize {T : Type} (mv : MeasurementValue T)
    (measurements : MidMeasureMP → Nat) : T :=
  mv.processing_fn (mv.measurements.map measurements)

/-- Full enumeration `MeasurementValue.items`: all `2 ^ n` branch tuples in binary-counter
order, paired with the evaluated combining function.  The branch tuple is
built by `f"{i:0{num_meas}b}"`, hence `pyBits`. -/
def MeasurementValue.items {T : Type} (mv : MeasurementValue T) :
    List (List Nat × T) :=
  (List.range (2 ^ mv.measurements.length)).map (fun i =>
    (pyBits mv.measurements.length i,
     mv.processing_fn (pyBits mv.measurements.length i)))

/-- Reconstruction of the full branch tuple in
`MeasurementValue.postselected_items`:
`tuple(ps[j] if j in ps else next(non_ps_branch_iter) for j in range(n))`.
Positions with a declared postselect value receive that value; the free
positions consume the free branch bits in order.  The default `0` of
`headD`/`tail` is never reached when the free branch has one bit per free
position. -/
def interleave : List (Option Nat) → List Nat → List Nat
  | [], _ => []
  | some p :: rest, free => p :: interleave rest free
  | none :: rest, free => free.headD 0 :: interleave rest free.tail

/-- The dependency postselect values, in dependency order. -/
def postsOf {T : Type} (mv : MeasurementValue T) : List (Option Nat) :=
  mv.measurements.map (fun m => m.postselect)

/-- The number of free (not postselected) dependencies. -/
def numFreeOf {T : Type} (mv : MeasurementValue T) : Nat :=
  (postsOf mv).countP (fun p => p.isNone)

/-- Postselection-aware enumeration `MeasurementValue.postselected_items`: the dict
`ps = {i: p for i, m in enumerate(ms) if (p := m.postselect) is not None}`
fixes the postselected positions; only the `n - len(ps)` free positions
are enumerated.  With zero free positions a single entry is produced: the
empty branch paired with the evaluation at the fixed values
(`ps.values()` in position order). -/
def MeasurementValue.postselected_items {T : Type} (mv : MeasurementValue T) :
    List (List Nat × T) :=
  let posts := mv.measurements.map (fun m => m.postselect)
  let num_non_ps := mv.measurements.length - posts.countP (fun p => p.isSome)
  if num_non_ps = 0 then
    [([], mv.processing_fn (posts.filterMap id))]
  else
    (List.range (2 ^ num_non_ps)).map (fun i =>
      (pyBits num_non_ps i,
       mv.processing_fn (interleave posts (pyBits num_non_ps i))))

/-- Measurement construction `_measure_impl`: raises when more than one wire is given, otherwise
creates one fresh record and wraps it with the identity combining
function (`lambda v: v`).  The fresh `uuid4` token is an external effect,
modelled by passing the token `measurement_id` explicitly. -/
def _measure_impl (wires : List Nat) (reset : Bool) (postselect : Option Nat)
    (measurement_id : Nat) : Except String (MeasurementValue Nat) :=
  if wires.length > 1 then
    Except.error "Only a single qubit can be measured in the middle of the circuit"
  else
    Except.ok
      { measurements := [{ wires := wires, reset := reset,
                           postselect := postselect, id := measurement_id }]
        processing_fn := fun v => v.headD 0 }

/-- The `get_mcm_predicates` loop body: each predicate is guarded by the
accumulated negation `false_cond`, which then also absorbs the
predicate's negation; the final element is the accumulated negation
itself (the implicit `else`). -/
def mcmPredicatesAux (false_cond : MeasurementValue Bool) :
    List (MeasurementValue Bool) → List (MeasurementValue Bool)
  | [] => [false_cond]
  | c :: cs =>
    MeasurementValue.and false_cond c ::
      mcmPredicatesAux (MeasurementValue.and false_cond (MeasurementValue.inv c)) cs

/-- The exclusivity transform `get_mcm_predicates`: make the ordered `if`/`elif` predicates mutually
exclusive and append the implicit `else` predicate.  Python indexes
`conditions[0]`, raising on an empty tuple; the empty case returns `[]`
here and the claims only concern non-empty inputs. -/
def get_mcm_predicates :
    List (MeasurementValue Bool) → List (MeasurementValue Bool)
  | [] => []
  | c0 :: rest => c0 :: mcmPredicatesAux (MeasurementValue.inv c0) rest

/-- Wire remapping `MeasurementValue.map_wires`: remap the wires of every dependency,
keeping the combining function. -/
def MeasurementValue.map_wires {T : Type} (mv : MeasurementValue T)
    (wire_map : Nat → Nat) : MeasurementValue T :=
  { measurements := mv.measurements.map (fun m => m.map_wires wire_map)
    processing_fn := mv.processing_fn }

/-- An entry of a circuit's operation list.  Modelled from the spec: the
scanned source only checks `isinstance(op, MidMeasureMP)`; all other
operation kinds are collapsed into `gate`. -/
inductive CircuitOp where
  | mcm (m : MidMeasureMP)
  | gate

/-- The `mv` attribute of a terminal measurement.  Modelled from the
spec: a terminal measurement optionally carries one symbolic value or a
list of them; the scanned source checks `isinstance(m.mv, list)` and
`m.mv is not None`.  The output type of the carried values does not
matter to the scan; `Nat` is used. -/
inductive MVField where
  | none
  | single (mv : MeasurementValue Nat)
  | list (mvs : List (MeasurementValue Nat))

/-- A terminal measurement, reduced to the one attribute the scan reads. -/
structure TerminalMeasurement where
  mv : MVField

/-- A circuit: operation list and terminal-measurement list.  Modelled
from the spec (section 3, Relationships); the scanned source reads
`circuit.operations` and `circuit.measurements`. -/
structure Circuit where
  operations : List CircuitOp
  measurements : List TerminalMeasurement

/-- The scan `find_post_processed_mcms`: the set of postselected mid-circuit
measurements in the operation list, unioned with the dependencies of
every terminal measurement's symbolic value(s), scanning both the
single-value and the list-of-values form. -/
def find_post_processed_mcms (circuit : Circuit) : Finset MidMeasureMP :=
  circuit.measurements.foldl
    (fun acc tm =>
      match tm.mv with
      | MVField.list mvs =>
          mvs.foldl (fun a mv => a ∪ mv.measurements.toFinset) acc
      | MVField.single mv => acc ∪ mv.measurements.toFinset
      | MVField.none => acc)
    ((circuit.operations.filterMap (fun op =>
        match op with
        | CircuitOp.mcm m => if m.postselect.isSome then some m else none
        | CircuitOp.gate => none)).toFinset)

/-- The record dependencies contributed by one terminal measurement. -/
def tmDeps (tm : TerminalMeasurement) : Finset MidMeasureMP :=
  match tm.mv with
  | MVField.list mvs => mvs.foldl (fun a mv => a ∪ mv.measurements.toFinset) ∅
  | MVField.single mv => mv.measurements.toFinset
  | MVField.none => ∅

/-- A branch-result value in the AutoGraph conditional: either the
`Undefined` marker from `malt.operators.variables` (an external class,
only tested via `isinstance`) or an actual value. -/
inductive AGVal where
  | undef
  | val (n : Nat)
deriving DecidableEq, Repr

/-- The `AutoGraphError` message of `assert_results`; Python surrounds
the variable name with single quotes, which are omitted here. -/
def agMsg (v : String) : String :=
  "Some branches did not define a value for variable " ++ v

/-- The check `assert_results`: after the length assertion (modelled as an error on
mismatch), raise an `AutoGraphError` naming the first variable whose
result is `Undefined`; otherwise return the results unchanged. -/
def assert_results (results : List AGVal) (var_names : List String) :
    Except String (List AGVal) :=
  if results.length = var_names.length then
    match (results.zip var_names).find? (fun rv => rv.1 == AGVal.undef) with
    | some rv => Except.error (agMsg rv.2)
    | none => Except.ok results
  else
    Except.error "assert failed"

/-- The conditional `if_stmt`: both branches are traced (modelled from the spec: the
external `qml.cond` primitive runs the true branch first, then the
`otherwise` branch, each from the restored initial state, and each branch
asserts its results via `assert_results`); the selected branch's results
become the new state.  `get_state`/`set_state` are modelled by passing
the branch state transformers and returning the selected results. -/
def if_stmt (pred : Bool) (true_fn false_fn : List AGVal → List AGVal)
    (init_state : List AGVal) (symbol_names : List String) :
    Except String (List AGVal) :=
  match assert_results (true_fn init_state) symbol_names with
  | Except.error e => Except.error e
  | Except.ok r1 =>
    match assert_results (false_fn init_state) symbol_names with
    | Except.error e => Except.error e
    | Except.ok r2 => Except.ok (if pred then r1 else r2)

/-! Theorems settling the claims, with their supporting lemmas. -/

theorem natToBits_length (n i : Nat) : (natToBits n i).length = n := by
  induction n generalizing i with
  | zero => rfl
  | succ n ih => simp [natToBits, ih]

theorem natToBits_le_one (n i : Nat) : ∀ b ∈ natToBits n i, b ≤ 1 := by
  induction n generalizing i with
  | zero => intro b hb; simp [natToBits] at hb
  | succ n ih =>
    intro b hb
    simp only [natToBits, List.mem_cons] at hb
    rcases hb with h | h
    · subst h; omega
    · exact ih i b h

theorem mod_two_pow_succ (i n : Nat) :
    i % 2 ^ (n + 1) = i / 2 ^ n % 2 * 2 ^ n + i % 2 ^ n := by
  have h3 : 2 ^ n * (i % (2 ^ n * 2) / 2 ^ n) + i % (2 ^ n * 2) % 2 ^ n
      = i % (2 ^ n * 2) := Nat.div_add_mod _ _
  rw [Nat.mod_mul_right_div_self, Nat.mod_mod_of_dvd i ⟨2, rfl⟩,
    Nat.mul_comm (2 ^ n) (i / 2 ^ n % 2)] at h3
  rw [Nat.pow_succ]
  exact h3.symm

theorem bitsToNat_aux (bs : List Nat) :
    ∀ a, bs.foldl (fun a b => 2 * a + b) a = a * 2 ^ bs.length + bitsToNat bs := by
  induction bs with
  | nil => intro a; simp [bitsToNat]
  | cons b bs ih =>
    intro a
    show bs.foldl (fun a b => 2 * a + b) (2 * a + b)
        = a * 2 ^ (b :: bs).length + bitsToNat (b :: bs)
    rw [ih (2 * a + b)]
    show (2 * a + b) * 2 ^ bs.length + bitsToNat bs
        = a * 2 ^ (bs.length + 1) + bitsToNat (b :: bs)
    have hb : bitsToNat (b :: bs) = b * 2 ^ bs.length + bitsToNat bs := by
      show bs.foldl (fun a b => 2 * a + b) (2 * 0 + b)
          = b * 2 ^ bs.length + bitsToNat bs
      rw [ih (2 * 0 + b)]; ring_nf
    rw [hb, Nat.pow_succ]; ring

theorem bitsToNat_natToBits (n i : Nat) :
    bitsToNat (natToBits n i) = i % 2 ^ n := by
  induction n generalizing i with
  | zero => simp [natToBits, bitsToNat, Nat.mod_one]
  | succ n ih =>
    show bitsToNat (i / 2 ^ n % 2 :: natToBits n i) = i % 2 ^ (n + 1)
    have : bitsToNat (i / 2 ^ n % 2 :: natToBits n i)
        = (2 * 0 + i / 2 ^ n % 2) * 2 ^ (natToBits n i).length
          + bitsToNat (natToBits n i) := by
      exact bitsToNat_aux (natToBits n i) (2 * 0 + i / 2 ^ n % 2)
    rw [this, natToBits_length, ih, mod_two_pow_succ]
    ring_nf

theorem bitsToNat_lt (bs : List Nat) (h : ∀ b ∈ bs, b ≤ 1) :
    bitsToNat bs < 2 ^ bs.length := by
  induction bs with
  | nil => simp [bitsToNat]
  | cons b bs ih =>
    have hb : b ≤ 1 := h b (List.mem_cons_self _ _)
    have htl : ∀ x ∈ bs, x ≤ 1 := fun x hx => h x (List.mem_cons_of_mem _ hx)
    have h1 : bitsToNat (b :: bs)
        = (2 * 0 + b) * 2 ^ bs.length + bitsToNat bs :=
      bitsToNat_aux bs (2 * 0 + b)
    have h2 := ih htl
    show bitsToNat (b :: bs) < 2 ^ (bs.length + 1)
    calc bitsToNat (b :: bs) = (2 * 0 + b) * 2 ^ bs.length + bitsToNat bs := h1
      _ = b * 2 ^ bs.length + bitsToNat bs := by ring_nf
      _ ≤ 1 * 2 ^ bs.length + bitsToNat bs :=
          Nat.add_le_add_right (Nat.mul_le_mul_right _ hb) _
      _ < 2 ^ bs.length + 2 ^ bs.length := by omega
      _ = 2 ^ (bs.length + 1) := by rw [Nat.pow_succ]; omega

theorem natToBits_high (n : Nat) : ∀ c i, natToBits n (i + c * 2 ^ n) = natToBits n i := by
  induction n with
  | zero => intro c i; rfl
  | succ n ih =>
    intro c i
    have hc : i + c * 2 ^ (n + 1) = i + c * 2 * 2 ^ n := by
      rw [Nat.pow_succ]; ring
    have hd : (i + c * 2 * 2 ^ n) / 2 ^ n = i / 2 ^ n + c * 2 :=
      Nat.add_mul_div_right i (c * 2) (Nat.pos_pow_of_pos n (by omega))
    have hm : (i / 2 ^ n + c * 2) % 2 = i / 2 ^ n % 2 := by
      omega
    show (i + c * 2 ^ (n + 1)) / 2 ^ n % 2 :: natToBits n (i + c * 2 ^ (n + 1))
        = i / 2 ^ n % 2 :: natToBits n i
    rw [hc, hd, hm, ih (c * 2) i]

theorem natToBits_bitsToNat (bs : List Nat) (h : ∀ b ∈ bs, b ≤ 1) :
    natToBits bs.length (bitsToNat bs) = bs := by
  induction bs with
  | nil => rfl
  | cons b bs ih =>
    have hb : b ≤ 1 := h b (List.mem_cons_self _ _)
    have htl : ∀ x ∈ bs, x ≤ 1 := fun x hx => h x (List.mem_cons_of_mem _ hx)
    have h1 : bitsToNat (b :: bs) = b * 2 ^ bs.length + bitsToNat bs := by
      have := bitsToNat_aux bs (2 * 0 + b)
      simpa [bitsToNat] using this
    have hlt : bitsToNat bs < 2 ^ bs.length := bitsToNat_lt bs htl
    have hhead : bitsToNat (b :: bs) / 2 ^ bs.length % 2 = b := by
      have hdiv : (bitsToNat bs + b * 2 ^ bs.length) / 2 ^ bs.length = b := by
        rw [Nat.add_mul_div_right _ _ (Nat.pos_pow_of_pos bs.length (by omega)),
          Nat.div_eq_of_lt hlt, Nat.zero_add]
      rw [h1, Nat.add_comm, hdiv, Nat.mod_eq_of_lt (by omega)]
    have htail : natToBits bs.length (bitsToNat (b :: bs)) = bs := by
      rw [h1, Nat.add_comm, natToBits_high bs.length b (bitsToNat bs), ih htl]
    show bitsToNat (b :: bs) / 2 ^ bs.length % 2
        :: natToBits bs.length (bitsToNat (b :: bs)) = b :: bs
    rw [hhead, htail]

theorem natToBits_injOn (n i j : Nat) (hi : i < 2 ^ n) (hj : j < 2 ^ n)
    (h : natToBits n i = natToBits n j) : i = j := by
  have hi2 := bitsToNat_natToBits n i
  have hj2 := bitsToNat_natToBits n j
  rw [Nat.mod_eq_of_lt hi] at hi2
  rw [Nat.mod_eq_of_lt hj] at hj2
  rw [h, hj2] at hi2
  exact hi2.symm

theorem mem_mergedList {m : MidMeasureMP} {l₁ l₂ : List MidMeasureMP} :
    m ∈ mergedList l₁ l₂ ↔ m ∈ l₁ ∨ m ∈ l₂ := by
  unfold mergedList
  rw [List.mem_insertionSort, List.mem_dedup, List.mem_append]

theorem getD_map_indexOf (l : List MidMeasureMP) (σ : MidMeasureMP → Nat)
    (m : MidMeasureMP) (h : m ∈ l) :
    (l.map σ).getD (l.indexOf m) 0 = σ m := by
  have hlt : l.indexOf m < l.length := List.indexOf_lt_length.mpr h
  have hlt2 : l.indexOf m < (l.map σ).length := by simpa using hlt
  rw [List.getD_eq_getElem _ _ hlt2, List.getElem_map]
  congr 1
  exact List.getElem_indexOf hlt

theorem concretize_merge {T₁ T₂ : Type} (a : MeasurementValue T₁)
    (b : MeasurementValue T₂) (σ : MidMeasureMP → Nat) :
    (a._merge b).concretize σ = (a.concretize σ, b.concretize σ) := by
  have key : ∀ (l : List MidMeasureMP),
      (∀ m ∈ l, m ∈ mergedList a.measurements b.measurements) →
      l.map (fun m => ((mergedList a.measurements b.measurements).map σ).getD
        ((mergedList a.measurements b.measurements).indexOf m) 0) = l.map σ :=
    fun l hl => List.map_congr_left (fun m hm => getD_map_indexOf _ σ m (hl m hm))
  have hmm : (a._merge b).measurements = mergedList a.measurements b.measurements := rfl
  show (a.processing_fn _, b.processing_fn _) = (a.processing_fn _, b.processing_fn _)
  rw [hmm, key a.measurements (fun m hm => mem_mergedList.mpr (Or.inl hm)),
    key b.measurements (fun m hm => mem_mergedList.mpr (Or.inr hm))]

theorem concretize_apply {T S : Type} (mv : MeasurementValue T) (fn : T → S)
    (σ : MidMeasureMP → Nat) :
    (mv._apply fn).concretize σ = fn (mv.concretize σ) := rfl

theorem concretize_inv (mv : MeasurementValue Bool) (σ : MidMeasureMP → Nat) :
    mv.inv.concretize σ = !(mv.concretize σ) := rfl

theorem concretize_and (a b : MeasurementValue Bool) (σ : MidMeasureMP → Nat) :
    (a.and b).concretize σ = (a.concretize σ && b.concretize σ) := by
  show ((a._merge b)._apply (fun t => t.1 && t.2)).concretize σ = _
  rw [concretize_apply, concretize_merge]

theorem mcmPredicatesAux_length (fc : MeasurementValue Bool)
    (cs : List (MeasurementValue Bool)) :
    (mcmPredicatesAux fc cs).length = cs.length + 1 := by
  induction cs generalizing fc with
  | nil => rfl
  | cons c cs ih => simp [mcmPredicatesAux, ih]

theorem mcmPredicatesAux_count (σ : MidMeasureMP → Nat)
    (cs : List (MeasurementValue Bool)) :
    ∀ fc, ((mcmPredicatesAux fc cs).map (fun q => q.concretize σ)).count true
      = if fc.concretize σ = true then 1 else 0 := by
  induction cs with
  | nil =>
    intro fc
    by_cases h : fc.concretize σ = true <;>
      simp [mcmPredicatesAux, List.count_cons, h]
  | cons c cs ih =>
    intro fc
    show ((MeasurementValue.and fc c).concretize σ ::
        (mcmPredicatesAux (MeasurementValue.and fc (MeasurementValue.inv c)) cs).map
          (fun q => q.concretize σ)).count true = _
    rw [List.count_cons, ih, concretize_and, concretize_and, concretize_inv]
    by_cases hf : fc.concretize σ = true <;> by_cases hc : c.concretize σ = true <;>
      simp [hf, hc]

theorem mcmPredicatesAux_false (σ : MidMeasureMP → Nat)
    (cs : List (MeasurementValue Bool)) :
    ∀ fc, fc.concretize σ = false →
      (mcmPredicatesAux fc cs).map (fun q => q.concretize σ)
        = List.replicate (cs.length + 1) false := by
  induction cs with
  | nil => intro fc h; simp [mcmPredicatesAux, h, List.replicate_succ]
  | cons c cs ih =>
    intro fc h
    have hand : (MeasurementValue.and fc (MeasurementValue.inv c)).concretize σ = false := by
      rw [concretize_and, h]; rfl
    show (MeasurementValue.and fc c).concretize σ ::
        (mcmPredicatesAux (MeasurementValue.and fc (MeasurementValue.inv c)) cs).map
          (fun q => q.concretize σ) = _
    rw [ih _ hand, concretize_and, h]
    simp [List.replicate_succ]

/-- C1: for a non-empty sequence of boolean predicates, `get_mcm_predicates`
returns `k + 2` symbolic values such that under every concrete bit
assignment to the underlying measurements exactly one of them evaluates
true, and whenever the first input predicate is true the first output is
true and all others are false. -/
theorem get_mcm_predicates_exclusive (c0 : MeasurementValue Bool)
    (rest : List (MeasurementValue Bool)) (σ : MidMeasureMP → Nat) :
    (get_mcm_predicates (c0 :: rest)).length = rest.length + 2
    ∧ ((get_mcm_predicates (c0 :: rest)).map (fun q => q.concretize σ)).count true = 1
    ∧ (c0.concretize σ = true →
        (get_mcm_predicates (c0 :: rest)).map (fun q => q.concretize σ)
          = true :: List.replicate (rest.length + 1) false) := by
  refine ⟨?_, ?_, ?_⟩
  · show (c0 :: mcmPredicatesAux (MeasurementValue.inv c0) rest).length = rest.length + 2
    simp [mcmPredicatesAux_length]
  · show (c0.concretize σ ::
        (mcmPredicatesAux (MeasurementValue.inv c0) rest).map
          (fun q => q.concretize σ)).count true = 1
    rw [List.count_cons, mcmPredicatesAux_count σ rest (MeasurementValue.inv c0),
      concretize_inv]
    by_cases h : c0.concretize σ = true <;> simp [h]
  · intro h
    show c0.concretize σ ::
        (mcmPredicatesAux (MeasurementValue.inv c0) rest).map
          (fun q => q.concretize σ) = _
    rw [h, mcmPredicatesAux_false σ rest _ (by rw [concretize_inv, h]; rfl)]

/-- Concrete instance of `get_mcm_predicates_exclusive`: two
single-dependency predicates, an assignment making the second one true. -/
theorem get_mcm_predicates_exclusive_witness :
    ((get_mcm_predicates
        [(⟨[⟨[0], false, none, 0⟩], fun x => x.headD 0 == 1⟩ : MeasurementValue Bool),
         (⟨[⟨[1], false, none, 1⟩], fun x => x.headD 0 == 1⟩ : MeasurementValue Bool)]).map
      (fun q => q.concretize (fun m => m.id))).count true = 1 :=
  (get_mcm_predicates_exclusive
    (⟨[⟨[0], false, none, 0⟩], fun x => x.headD 0 == 1⟩ : MeasurementValue Bool)
    [(⟨[⟨[1], false, none, 1⟩], fun x => x.headD 0 == 1⟩ : MeasurementValue Bool)]
    (fun m => m.id)).2.1

theorem pairwise_ltById (l : List MidMeasureMP)
    (hinj : ∀ a ∈ l, ∀ b ∈ l, a.id = b.id → a = b)
    (hs : l.Pairwise mLeById) (hn : l.Nodup) :
    l.Pairwise (fun m m' => m.id < m'.id) := by
  induction l with
  | nil => exact List.Pairwise.nil
  | cons a l ih =>
    rw [List.pairwise_cons] at hs ⊢
    rw [List.nodup_cons] at hn
    refine ⟨?_, ih ?_ hs.2 hn.2⟩
    · intro b hb
      have hle : mLeById a b := hs.1 b hb
      rcases Nat.lt_or_ge a.id b.id with h | h
      · exact h
      · have heq : a.id = b.id := Nat.le_antisymm hle h
        have hab : a = b :=
          hinj a (List.mem_cons_self a l) b (List.mem_cons_of_mem a hb) heq
        exact absurd (hab ▸ hb) hn.1
    · intro x hx y hy hxy
      exact hinj x (List.mem_cons_of_mem a hx) y (List.mem_cons_of_mem a hy) hxy

theorem nodup_mergedList (l₁ l₂ : List MidMeasureMP) :
    (mergedList l₁ l₂).Nodup :=
  ((List.perm_insertionSort mLeById ((l₁ ++ l₂).dedup)).nodup_iff).mpr
    (List.nodup_dedup _)

theorem mergedList_pairwise (l₁ l₂ : List MidMeasureMP)
    (hinj : ∀ a b, a ∈ l₁ ++ l₂ → b ∈ l₁ ++ l₂ → a.id = b.id → a = b) :
    (mergedList l₁ l₂).Pairwise (fun m m' => m.id < m'.id) := by
  apply pairwise_ltById
  · intro a ha b hb heq
    have ha' : a ∈ l₁ ++ l₂ := by
      have := mem_mergedList.mp ha
      rw [List.mem_append]; exact this
    have hb' : b ∈ l₁ ++ l₂ := by
      have := mem_mergedList.mp hb
      rw [List.mem_append]; exact this
    exact hinj a b ha' hb' heq
  · exact List.sorted_insertionSort mLeById ((l₁ ++ l₂).dedup)
  · exact nodup_mergedList l₁ l₂

theorem mergedList_canonical (p q r s : List MidMeasureMP)
    (hmem : ∀ m, m ∈ p ++ q ↔ m ∈ r ++ s)
    (hinj : ∀ a b, a ∈ p ++ q → b ∈ p ++ q → a.id = b.id → a = b) :
    mergedList p q = mergedList r s := by
  haveI : IsAntisymm MidMeasureMP (fun m m' => m.id < m'.id) :=
    ⟨fun a b h h' => absurd (Nat.lt_trans h h') (Nat.lt_irrefl _)⟩
  have hd : List.Perm ((p ++ q).dedup) ((r ++ s).dedup) := by
    rw [List.perm_ext_iff_of_nodup (List.nodup_dedup _) (List.nodup_dedup _)]
    intro a
    rw [List.mem_dedup, List.mem_dedup]
    exact hmem a
  have hp : List.Perm (mergedList p q) (mergedList r s) :=
    ((List.perm_insertionSort mLeById _).trans hd).trans
      (List.perm_insertionSort mLeById _).symm
  have hinj' : ∀ a b, a ∈ r ++ s → b ∈ r ++ s → a.id = b.id → a = b := by
    intro a b ha hb
    exact hinj a b ((hmem a).mpr ha) ((hmem b).mpr hb)
  exact List.eq_of_perm_of_sorted hp
    (mergedList_pairwise p q hinj) (mergedList_pairwise r s hinj')

/-- C2: with globally unique identity tokens (the data-model invariant,
stated as: distinct records among the dependencies involved have distinct
`id`s), merging is commutative up to the paired output order — `A._merge B`
and `B._merge A` have identical dependency lists, namely the deduplicated
union sorted strictly by identity token, and their combining functions
agree on every bit assignment up to `Prod.swap` — and repeated merges
converge to the same canonical ordering regardless of merge order
(`(A._merge B)._merge C` and `(B._merge C)._merge A` have identical
dependency lists). -/
theorem merge_commutative_canonical {T₁ T₂ T₃ : Type} (A : MeasurementValue T₁)
    (B : MeasurementValue T₂) (C : MeasurementValue T₃)
    (hids : ((A.measurements ++ B.measurements ++ C.measurements).dedup.map
      (fun m => m.id)).Nodup) :
    (A._merge B).measurements = (B._merge A).measurements
    ∧ (∀ m, m ∈ (A._merge B).measurements ↔
        m ∈ A.measurements ∨ m ∈ B.measurements)
    ∧ (A._merge B).measurements.Pairwise (fun m m' => m.id < m'.id)
    ∧ (∀ x, (A._merge B).processing_fn x = Prod.swap ((B._merge A).processing_fn x))
    ∧ ((A._merge B)._merge C).measurements = ((B._merge C)._merge A).measurements := by
  have hinj : ∀ a b, a ∈ A.measurements ++ B.measurements ++ C.measurements →
      b ∈ A.measurements ++ B.measurements ++ C.measurements → a.id = b.id → a = b := by
    intro a b ha hb heq
    exact List.inj_on_of_nodup_map hids
      (List.mem_dedup.mpr ha) (List.mem_dedup.mpr hb) heq
  have hAB : ∀ a b, a ∈ A.measurements ++ B.measurements →
      b ∈ A.measurements ++ B.measurements → a.id = b.id → a = b := by
    intro a b ha hb heq
    refine hinj a b ?_ ?_ heq <;>
      simp only [List.mem_append] at ha hb ⊢ <;> tauto
  have h1 : (A._merge B).measurements = (B._merge A).measurements := by
    show mergedList A.measurements B.measurements
        = mergedList B.measurements A.measurements
    apply mergedList_canonical
    · intro m; simp only [List.mem_append]; exact Or.comm
    · exact hAB
  refine ⟨h1, ?_, ?_, ?_, ?_⟩
  · intro m
    show m ∈ mergedList A.measurements B.measurements ↔ _
    exact mem_mergedList
  · show (mergedList A.measurements B.measurements).Pairwise _
    exact mergedList_pairwise _ _ hAB
  · intro x
    have hl : mergedList B.measurements A.measurements
        = mergedList A.measurements B.measurements := h1.symm
    show (A.processing_fn _, B.processing_fn _)
        = Prod.swap (B.processing_fn _, A.processing_fn _)
    rw [Prod.swap_prod_mk, hl]
  · show mergedList (mergedList A.measurements B.measurements) C.measurements
        = mergedList (mergedList B.measurements C.measurements) A.measurements
    apply mergedList_canonical
    · intro m
      simp only [List.mem_append, mem_mergedList]
      tauto
    · intro a b ha hb heq
      refine hinj a b ?_ ?_ heq
      · revert ha; simp only [List.mem_append, mem_mergedList]; tauto
      · revert hb; simp only [List.mem_append, mem_mergedList]; tauto

/-- Concrete instance of `merge_commutative_canonical`: three
single-dependency values with distinct identity tokens. -/
theorem merge_commutative_canonical_witness :
    ((⟨[⟨[0], false, none, 2⟩], fun x => x.headD 0⟩ : MeasurementValue Nat)._merge
      (⟨[⟨[1], false, none, 1⟩], fun x => x.headD 0⟩ : MeasurementValue Nat)).measurements
    = ((⟨[⟨[1], false, none, 1⟩], fun x => x.headD 0⟩ : MeasurementValue Nat)._merge
      (⟨[⟨[0], false, none, 2⟩], fun x => x.headD 0⟩ : MeasurementValue Nat)).measurements :=
  (merge_commutative_canonical
    (⟨[⟨[0], false, none, 2⟩], fun x => x.headD 0⟩ : MeasurementValue Nat)
    (⟨[⟨[1], false, none, 1⟩], fun x => x.headD 0⟩ : MeasurementValue Nat)
    (⟨[⟨[2], false, none, 0⟩], fun x => x.headD 0⟩ : MeasurementValue Nat)
    (by decide)).1

/-- C3 (amended): the set deduplication in `_merge` compares records by
their full fingerprint, which includes the wires, not by identity token
alone.  Merging a single-record value with a wire-remapped copy of itself
yields a single shared dependency exactly when the wire map leaves the
record's wires unchanged, and two separate dependencies otherwise. -/
theorem merge_map_wires_dedup (m : MidMeasureMP) (w : Nat → Nat)
    (f : List Nat → Nat) :
    ((⟨[m], f⟩ : MeasurementValue Nat)._merge
        ((⟨[m], f⟩ : MeasurementValue Nat).map_wires w)).measurements.length
      = if m.wires.map w = m.wires then 1 else 2 := by
  have hlen : ((⟨[m], f⟩ : MeasurementValue Nat)._merge
      ((⟨[m], f⟩ : MeasurementValue Nat).map_wires w)).measurements.length
      = (([m] ++ [m.map_wires w]).dedup).length := by
    show (mergedList [m] [m.map_wires w]).length = _
    exact (List.perm_insertionSort mLeById _).length_eq
  rw [hlen]
  by_cases h : m.wires.map w = m.wires
  · rw [if_pos h]
    have hm : m.map_wires w = m := by
      show { m with wires := m.wires.map w } = m
      rw [h]
    rw [hm]
    show (m :: [m]).dedup.length = 1
    rw [List.dedup_cons_of_mem (List.mem_singleton_self m)]
    simp [List.dedup]
  · rw [if_neg h]
    have hm : m ∉ [m.map_wires w] := by
      rw [List.mem_singleton]
      intro he
      apply h
      have := congrArg MidMeasureMP.wires he
      simpa [MidMeasureMP.map_wires] using this.symm
    show (m :: [m.map_wires w]).dedup.length = 2
    rw [List.dedup_cons_of_not_mem hm]
    simp [List.dedup]

/-- C3 counterexample: a record on wire `0` with token `5`, wire-remapped
to wire `1`.  The merged dependency list has two entries, not one — the
remapped copy is not recognized as the same measurement. -/
theorem merge_map_wires_counterexample :
    ((⟨[⟨[0], false, none, 5⟩], fun x => x.headD 0⟩ : MeasurementValue Nat)._merge
        ((⟨[⟨[0], false, none, 5⟩], fun x => x.headD 0⟩ : MeasurementValue Nat).map_wires
          (fun _ => 1))).measurements.length = 2
    ∧ ((⟨[⟨[0], false, none, 5⟩], fun x => x.headD 0⟩ : MeasurementValue Nat)._merge
        ((⟨[⟨[0], false, none, 5⟩], fun x => x.headD 0⟩ : MeasurementValue Nat).map_wires
          (fun _ => 1))).measurements.length ≠ 1 := by
  decide

theorem items_eq {T : Type} (mv : MeasurementValue T)
    (h : 1 ≤ mv.measurements.length) :
    mv.items = (List.range (2 ^ mv.measurements.length)).map (fun i =>
      (natToBits mv.measurements.length i,
       mv.processing_fn (natToBits mv.measurements.length i))) := by
  unfold MeasurementValue.items pyBits
  rw [Nat.max_eq_left h]

/-- C4 (amended): for a symbolic value with `n ≥ 1` dependencies, full
enumeration yields exactly `2 ^ n` entries in increasing binary-counter
order, the `i`-th entry's assignment being the `n`-bit binary
representation of `i` (most significant bit first) paired with the
combining function evaluated on it; all assignments are distinct and
every `n`-bit `0`/`1` string is covered.  (For `n = 0` the Python string
formatting pads to one digit, so the single entry carries the one-bit
assignment `(0,)` rather than the empty assignment.) -/
theorem items_spec {T : Type} (mv : MeasurementValue T)
    (h : 1 ≤ mv.measurements.length) :
    mv.items.length = 2 ^ mv.measurements.length
    ∧ (∀ i, i < 2 ^ mv.measurements.length →
        mv.items[i]? = some (natToBits mv.measurements.length i,
          mv.processing_fn (natToBits mv.measurements.length i)))
    ∧ (mv.items.map Prod.fst).Nodup
    ∧ (∀ bs : List Nat, bs.length = mv.measurements.length →
        (∀ b ∈ bs, b ≤ 1) → bs ∈ mv.items.map Prod.fst) := by
  have hfst : mv.items.map Prod.fst
      = (List.range (2 ^ mv.measurements.length)).map
          (fun i => natToBits mv.measurements.length i) := by
    rw [items_eq mv h, List.map_map]
    rfl
  refine ⟨?_, ?_, ?_, ?_⟩
  · rw [items_eq mv h, List.length_map, List.length_range]
  · intro i hi
    rw [items_eq mv h, List.getElem?_map, List.getElem?_range hi]
    rfl
  · rw [hfst]
    exact List.Nodup.map_on
      (fun x hx y hy hxy => natToBits_injOn mv.measurements.length x y
        (List.mem_range.mp hx) (List.mem_range.mp hy) hxy)
      (List.nodup_range _)
  · intro bs hlen hbits
    rw [hfst]
    refine List.mem_map.mpr ⟨bitsToNat bs, ?_, ?_⟩
    · exact List.mem_range.mpr (hlen ▸ bitsToNat_lt bs hbits)
    · rw [← hlen]
      exact natToBits_bitsToNat bs hbits

/-- Concrete instance of `items_spec`: a single-dependency value has two
enumeration entries. -/
theorem items_spec_witness :
    (⟨[⟨[0], false, none, 0⟩], fun x => x.headD 0⟩ : MeasurementValue Nat).items.length
      = 2 ^ (⟨[⟨[0], false, none, 0⟩], fun x => x.headD 0⟩
          : MeasurementValue Nat).measurements.length :=
  (items_spec (⟨[⟨[0], false, none, 0⟩], fun x => x.headD 0⟩ : MeasurementValue Nat)
    (by decide)).1

/-- C4 counterexample: a symbolic value with zero dependencies.  Python's
binary formatting pads to at least one digit, so the single enumeration
entry carries the one-bit assignment `(0,)` — not the empty `0`-bit
assignment — and the combining function is evaluated on `(0,)`. -/
theorem items_counterexample :
    (⟨[], fun x => x.length⟩ : MeasurementValue Nat).items.map Prod.fst = [[0]]
    ∧ (⟨[], fun x => x.length⟩ : MeasurementValue Nat).items.map Prod.fst
        ≠ [([] : List Nat)]
    ∧ (⟨[], fun x => x.length⟩ : MeasurementValue Nat).items.map Prod.snd = [1] := by
  decide

/-- C6 (amended): for a symbolic value with `n ≥ 1` pairwise-distinct
dependencies and any enumeration index `i < 2 ^ n`, concretizing with the
mapping that sends each dependency to the bit it holds in the `i`-th
enumeration assignment reproduces exactly the output paired with the
`i`-th enumeration entry.  (For `n = 0` enumeration evaluates the
combining function on the padded one-bit assignment `(0,)` while
`concretize` evaluates it on the empty bit vector, so the two can
differ.) -/
theorem concretize_items_inverse {T : Type} (mv : MeasurementValue T)
    (h : 1 ≤ mv.measurements.length) (hnd : mv.measurements.Nodup)
    (i : Nat) (hi : i < 2 ^ mv.measurements.length) :
    mv.items[i]? = some (natToBits mv.measurements.length i,
      mv.concretize (fun m =>
        (natToBits mv.measurements.length i).getD (mv.measurements.indexOf m) 0)) := by
  have hentry : mv.items[i]? = some (natToBits mv.measurements.length i,
      mv.processing_fn (natToBits mv.measurements.length i)) := by
    rw [items_eq mv h, List.getElem?_map, List.getElem?_range hi]
    rfl
  rw [hentry]
  have hmap : mv.measurements.map (fun m =>
      (natToBits mv.measurements.length i).getD (mv.measurements.indexOf m) 0)
      = natToBits mv.measurements.length i := by
    apply List.ext_getElem
    · rw [List.length_map, natToBits_length]
    · intro j hj hj'
      rw [List.getElem_map]
      rw [List.indexOf_getElem hnd j (by simpa using hj)]
      exact List.getD_eq_getElem _ _ hj'
  show some (_, mv.processing_fn _) = some (_, mv.processing_fn _)
  rw [hmap]

/-- Concrete instance of `concretize_items_inverse`: one dependency,
enumeration index `0`. -/
theorem concretize_items_inverse_witness :
    (⟨[⟨[0], false, none, 0⟩], fun x => x.headD 0⟩ : MeasurementValue Nat).items[0]?
      = some (natToBits 1 0,
        (⟨[⟨[0], false, none, 0⟩], fun x => x.headD 0⟩ : MeasurementValue Nat).concretize
          (fun m => (natToBits 1 0).getD
            ((⟨[⟨[0], false, none, 0⟩], fun x => x.headD 0⟩
              : MeasurementValue Nat).measurements.indexOf m) 0)) :=
  concretize_items_inverse
    (⟨[⟨[0], false, none, 0⟩], fun x => x.headD 0⟩ : MeasurementValue Nat)
    (by decide) (by decide) 0 (by decide)

/-- C6 counterexample: for a symbolic value with zero dependencies,
`concretize` evaluates the combining function on the empty vector while
the single enumeration entry evaluates it on the padded assignment
`(0,)`, so concretizing does not reproduce the enumerated output. -/
theorem concretize_items_counterexample :
    (⟨[], fun x => x.length⟩ : MeasurementValue Nat).concretize (fun _ => 0) = 0
    ∧ (⟨[], fun x => x.length⟩ : MeasurementValue Nat).items.map Prod.snd = [1]
    ∧ ¬ ((⟨[], fun x => x.length⟩ : MeasurementValue Nat).items.map Prod.snd
        = [(⟨[], fun x => x.length⟩ : MeasurementValue Nat).concretize (fun _ => 0)]) := by
  decide

theorem countP_isNone_eq (posts : List (Option Nat)) :
    posts.length - posts.countP (fun p => p.isSome) = posts.countP (fun p => p.isNone) := by
  induction posts with
  | nil => rfl
  | cons p rest ih =>
    have hle : rest.countP (fun p => p.isSome) ≤ rest.length :=
      List.countP_le_length _
    cases p <;> simp [List.countP_cons] <;> omega

theorem getD_tail (l : List Nat) (c : Nat) : l.tail.getD c 0 = l.getD (c + 1) 0 := by
  cases l <;> rfl

theorem interleave_fixed (posts : List (Option Nat)) :
    ∀ (free : List Nat) (j v : Nat), posts[j]? = some (some v) →
      (interleave posts free)[j]? = some v := by
  induction posts with
  | nil => intro free j v h; simp at h
  | cons p rest ih =>
    intro free j v h
    cases p with
    | some q =>
      cases j with
      | zero =>
        simp only [List.getElem?_cons_zero, Option.some.injEq] at h
        show (q :: interleave rest free)[0]? = some v
        simp [h]
      | succ j =>
        simp only [List.getElem?_cons_succ] at h
        show (q :: interleave rest free)[j + 1]? = some v
        rw [List.getElem?_cons_succ]
        exact ih free j v h
    | none =>
      cases j with
      | zero => simp at h
      | succ j =>
        simp only [List.getElem?_cons_succ] at h
        show (free.headD 0 :: interleave rest free.tail)[j + 1]? = some v
        rw [List.getElem?_cons_succ]
        exact ih free.tail j v h

theorem interleave_getD (posts : List (Option Nat)) :
    ∀ (free : List Nat) (j : Nat), j < posts.length →
      (interleave posts free).getD j 0 =
        (posts.getD j none).elim
          (free.getD ((posts.take j).countP (fun p => p.isNone)) 0)
          (fun v => v) := by
  induction posts with
  | nil => intro free j hj; simp at hj
  | cons p rest ih =>
    intro free j hj
    cases p with
    | some q =>
      cases j with
      | zero => rfl
      | succ j =>
        have hj' : j < rest.length := by simpa using hj
        show (q :: interleave rest free).getD (j + 1) 0 = _
        rw [List.getD_cons_succ, ih free j hj', List.getD_cons_succ,
          List.take_succ_cons, List.countP_cons]
        simp
    | none =>
      cases j with
      | zero =>
        show (free.headD 0 :: interleave rest free.tail).getD 0 0 = _
        rw [List.getD_cons_zero]
        cases free <;> rfl
      | succ j =>
        have hj' : j < rest.length := by simpa using hj
        show (free.headD 0 :: interleave rest free.tail).getD (j + 1) 0 = _
        rw [List.getD_cons_succ, ih free.tail j hj', List.getD_cons_succ,
          List.take_succ_cons, List.countP_cons]
        simp [getD_tail]

theorem interleave_filterMap (posts : List (Option Nat))
    (h : posts.countP (fun p => p.isNone) = 0) :
    interleave posts [] = posts.filterMap id := by
  induction posts with
  | nil => rfl
  | cons p rest ih =>
    cases p with
    | some q =>
      have h' : rest.countP (fun p => p.isNone) = 0 := by
        simpa [List.countP_cons] using h
      show q :: interleave rest [] = (some q :: rest).filterMap id
      rw [ih h']
      rfl
    | none =>
      exfalso
      simp [List.countP_cons] at h

theorem postselected_items_eq {T : Type} (mv : MeasurementValue T) :
    mv.postselected_items = (List.range (2 ^ numFreeOf mv)).map (fun i =>
      (natToBits (numFreeOf mv) i,
       mv.processing_fn (interleave (postsOf mv) (natToBits (numFreeOf mv) i)))) := by
  have hnum : mv.measurements.length
      - (mv.measurements.map (fun m => m.postselect)).countP (fun p => p.isSome)
      = numFreeOf mv := by
    rw [numFreeOf, postsOf, ← countP_isNone_eq, List.length_map]
  simp only [MeasurementValue.postselected_items]
  rw [hnum]
  by_cases h0 : numFreeOf mv = 0
  · rw [if_pos h0, h0]
    have hfm : interleave (postsOf mv) [] = (postsOf mv).filterMap id :=
      interleave_filterMap (postsOf mv) h0
    show [([], mv.processing_fn ((postsOf mv).filterMap id))] = _
    rw [← hfm]
    rfl
  · rw [if_neg h0]
    have h1 : 1 ≤ numFreeOf mv := Nat.one_le_iff_ne_zero.mpr h0
    apply List.map_congr_left
    intro i _
    show (pyBits (numFreeOf mv) i, _) = (natToBits (numFreeOf mv) i, _)
    unfold pyBits
    rw [Nat.max_eq_left h1]
    rfl

/-- C5: postselection-aware enumeration yields exactly `2 ^ (n - p)`
entries (`p` postselected dependencies), the `i`-th entry carrying the
`(n - p)`-bit binary-counter assignment of the free positions paired with
the combining function evaluated on the reconstructed full vector; the
reconstructed vector holds each declared postselect value at its
position, and at every free position it holds the free bit whose rank is
the number of free positions before it; with zero free dependencies there
is exactly one entry, the empty assignment paired with the evaluation at
the fixed values in position order. -/
theorem postselected_items_spec {T : Type} (mv : MeasurementValue T) :
    mv.postselected_items.length = 2 ^ numFreeOf mv
    ∧ (∀ i, i < 2 ^ numFreeOf mv →
        mv.postselected_items[i]? = some (natToBits (numFreeOf mv) i,
          mv.processing_fn (interleave (postsOf mv) (natToBits (numFreeOf mv) i))))
    ∧ (∀ (free : List Nat) (j v : Nat), (postsOf mv)[j]? = some (some v) →
        (interleave (postsOf mv) free)[j]? = some v)
    ∧ (∀ (free : List Nat) (j : Nat), j < (postsOf mv).length →
        (interleave (postsOf mv) free).getD j 0 =
          ((postsOf mv).getD j none).elim
            (free.getD (((postsOf mv).take j).countP (fun p => p.isNone)) 0)
            (fun v => v))
    ∧ (numFreeOf mv = 0 →
        mv.postselected_items
          = [([], mv.processing_fn ((postsOf mv).filterMap id))]) := by
  refine ⟨?_, ?_, ?_, ?_, ?_⟩
  · rw [postselected_items_eq, List.length_map, List.length_range]
  · intro i hi
    rw [postselected_items_eq, List.getElem?_map, List.getElem?_range hi]
    rfl
  · exact fun free j v h => interleave_fixed (postsOf mv) free j v h
  · exact fun free j hj => interleave_getD (postsOf mv) free j hj
  · intro h0
    rw [postselected_items_eq, h0]
    show [(natToBits 0 0, mv.processing_fn (interleave (postsOf mv) (natToBits 0 0)))] = _
    rw [show natToBits 0 0 = [] from rfl, interleave_filterMap (postsOf mv) h0]

/-- Concrete instance of `postselected_items_spec`: one postselected and
one free dependency; entry `0` of the postselection-aware enumeration. -/
theorem postselected_items_spec_witness :
    (⟨[⟨[0], false, some 1, 7⟩, ⟨[1], false, none, 8⟩], fun x => x.sum⟩
        : MeasurementValue Nat).postselected_items[0]?
      = some (natToBits (numFreeOf (⟨[⟨[0], false, some 1, 7⟩, ⟨[1], false, none, 8⟩],
            fun x => x.sum⟩ : MeasurementValue Nat)) 0,
          (⟨[⟨[0], false, some 1, 7⟩, ⟨[1], false, none, 8⟩], fun x => x.sum⟩
            : MeasurementValue Nat).processing_fn
            (interleave (postsOf (⟨[⟨[0], false, some 1, 7⟩, ⟨[1], false, none, 8⟩],
                fun x => x.sum⟩ : MeasurementValue Nat))
              (natToBits (numFreeOf (⟨[⟨[0], false, some 1, 7⟩, ⟨[1], false, none, 8⟩],
                fun x => x.sum⟩ : MeasurementValue Nat)) 0))) :=
  (postselected_items_spec (⟨[⟨[0], false, some 1, 7⟩, ⟨[1], false, none, 8⟩],
    fun x => x.sum⟩ : MeasurementValue Nat)).2.1 0 (by decide)

/-- C10: a dependency whose `postselect` value is `0` is treated as fixed
even though Python's `0` is falsy — the guard is `is not None`.  Its
position is excluded from the enumerated free subset (the free count is
strictly below the dependency count and counts exactly the `None`
positions), and every reconstructed full bit vector holds `0` at its
position. -/
theorem postselect_zero_fixed {T : Type} (mv : MeasurementValue T)
    (j : Nat) (m : MidMeasureMP)
    (hj : mv.measurements[j]? = some m) (hp : m.postselect = some 0) :
    numFreeOf mv < mv.measurements.length
    ∧ mv.postselected_items.length = 2 ^ numFreeOf mv
    ∧ (∀ i, i < 2 ^ numFreeOf mv →
        mv.postselected_items[i]? = some (natToBits (numFreeOf mv) i,
          mv.processing_fn (interleave (postsOf mv) (natToBits (numFreeOf mv) i)))
        ∧ (interleave (postsOf mv) (natToBits (numFreeOf mv) i))[j]? = some 0) := by
  have hpost : (postsOf mv)[j]? = some (some 0) := by
    rw [postsOf, List.getElem?_map, hj]
    simp [hp]
  refine ⟨?_, ?_, ?_⟩
  · have hmem : (some 0 : Option Nat) ∈ postsOf mv := by
      exact List.getElem?_mem hpost
    have hsome : 0 < (postsOf mv).countP (fun p => p.isSome) :=
      List.countP_pos_iff.mpr ⟨some 0, hmem, rfl⟩
    have hle : (postsOf mv).countP (fun p => p.isSome) ≤ (postsOf mv).length :=
      List.countP_le_length _
    have heq := countP_isNone_eq (postsOf mv)
    have hlen : (postsOf mv).length = mv.measurements.length := List.length_map _ _
    rw [numFreeOf, ← heq, hlen]
    have hposlen : j < mv.measurements.length := by
      have := List.getElem?_eq_some.mp hj
      exact this.1
    omega
  · rw [postselected_items_eq, List.length_map, List.length_range]
  · intro i hi
    constructor
    · rw [postselected_items_eq, List.getElem?_map, List.getElem?_range hi]
      rfl
    · exact interleave_fixed (postsOf mv) _ j 0 hpost

/-- Concrete instance of `postselect_zero_fixed`: the first dependency is
postselected on `0`, the second is free; the free count is `1 < 2`. -/
theorem postselect_zero_fixed_witness :
    numFreeOf (⟨[⟨[0], false, some 0, 3⟩, ⟨[1], false, none, 4⟩], fun x => x.sum⟩
        : MeasurementValue Nat)
      < (⟨[⟨[0], false, some 0, 3⟩, ⟨[1], false, none, 4⟩], fun x => x.sum⟩
        : MeasurementValue Nat).measurements.length :=
  (postselect_zero_fixed (⟨[⟨[0], false, some 0, 3⟩, ⟨[1], false, none, 4⟩],
      fun x => x.sum⟩ : MeasurementValue Nat) 0 ⟨[0], false, some 0, 3⟩
    (by decide) (by decide)).1

/-- C7 (amended): `_measure_impl` raises the construction error exactly
when the target resolves to more than one wire (zero wires are accepted);
the postselection value is not validated; for at most one wire it returns
a Symbolic Value wrapping one new record with the identity combining
function on the single bit. -/
theorem measure_impl_spec (wires : List Nat) (reset : Bool)
    (postselect : Option Nat) (mid : Nat) :
    (wires.length > 1 →
      _measure_impl wires reset postselect mid
        = Except.error "Only a single qubit can be measured in the middle of the circuit")
    ∧ (wires.length ≤ 1 →
      _measure_impl wires reset postselect mid
        = Except.ok ⟨[⟨wires, reset, postselect, mid⟩], fun v => v.headD 0⟩) := by
  constructor
  · intro h
    unfold _measure_impl
    rw [if_pos h]
  · intro h
    unfold _measure_impl
    rw [if_neg (by omega)]

/-- Concrete instance of `measure_impl_spec`: two wires raise the
construction error. -/
theorem measure_impl_spec_witness :
    _measure_impl [0, 1] false none 7
      = Except.error "Only a single qubit can be measured in the middle of the circuit" :=
  (measure_impl_spec [0, 1] false none 7).1 (by decide)

/-- C7 counterexample: an invalid postselection value (`5`, neither `0`
nor `1` nor unconstrained) is accepted without any error — construction
succeeds and stores the value unvalidated. -/
theorem measure_impl_counterexample :
    _measure_impl [0] false (some 5) 42
      = Except.ok ⟨[⟨[0], false, some 5, 42⟩], fun v => v.headD 0⟩ := rfl

theorem mem_foldl_union {α : Type} (g : α → Finset MidMeasureMP)
    (step : Finset MidMeasureMP → α → Finset MidMeasureMP)
    (hstep : ∀ acc x r, r ∈ step acc x ↔ r ∈ acc ∨ r ∈ g x) :
    ∀ (l : List α) (init : Finset MidMeasureMP) (r : MidMeasureMP),
      r ∈ l.foldl step init ↔ r ∈ init ∨ ∃ x ∈ l, r ∈ g x := by
  intro l
  induction l with
  | nil => intro init r; simp
  | cons x xs ih =>
    intro init r
    show r ∈ xs.foldl step (step init x) ↔ _
    rw [ih (step init x) r, hstep]
    constructor
    · rintro ((h | h) | ⟨y, hy, hr⟩)
      · exact Or.inl h
      · exact Or.inr ⟨x, List.mem_cons_self x xs, h⟩
      · exact Or.inr ⟨y, List.mem_cons_of_mem x hy, hr⟩
    · rintro (h | ⟨y, hy, hr⟩)
      · exact Or.inl (Or.inl h)
      · rcases List.mem_cons.mp hy with rfl | hy'
        · exact Or.inl (Or.inr hr)
        · exact Or.inr ⟨y, hy', hr⟩

theorem tmDeps_step (acc : Finset MidMeasureMP) (tm : TerminalMeasurement)
    (r : MidMeasureMP) :
    r ∈ ((match tm.mv with
      | MVField.list mvs =>
          mvs.foldl (fun a mv => a ∪ mv.measurements.toFinset) acc
      | MVField.single mv => acc ∪ mv.measurements.toFinset
      | MVField.none => acc) : Finset MidMeasureMP) ↔ r ∈ acc ∨ r ∈ tmDeps tm := by
  cases htm : tm.mv with
  | none => simp [tmDeps, htm]
  | single mv => simp [tmDeps, htm]
  | list mvs =>
    have hin := mem_foldl_union (fun mv : MeasurementValue Nat => mv.measurements.toFinset)
      (fun a mv => a ∪ mv.measurements.toFinset)
      (fun acc x r => Finset.mem_union) mvs
    simp only [tmDeps, htm]
    rw [hin acc r, hin ∅ r]
    simp

theorem tmDeps_mem (tm : TerminalMeasurement) (r : MidMeasureMP) :
    r ∈ tmDeps tm ↔
      (∃ mv, tm.mv = MVField.single mv ∧ r ∈ mv.measurements)
      ∨ (∃ mvs, tm.mv = MVField.list mvs ∧ ∃ mv ∈ mvs, r ∈ mv.measurements) := by
  cases htm : tm.mv with
  | none => simp [tmDeps, htm]
  | single mv => simp [tmDeps, htm]
  | list mvs =>
    have hin := mem_foldl_union (fun mv : MeasurementValue Nat => mv.measurements.toFinset)
      (fun a mv => a ∪ mv.measurements.toFinset)
      (fun acc x r => Finset.mem_union) mvs ∅ r
    simp only [tmDeps, htm]
    rw [hin]
    simp [List.mem_toFinset]

/-- C8: a record is in the result of `find_post_processed_mcms` exactly
when it appears in the operation list as a postselected mid-circuit
measurement, or it is a dependency of some terminal measurement's
symbolic value(s) — both the single-value form and the list-of-values
form being scanned; the result is an unordered set. -/
theorem find_post_processed_mcms_spec (c : Circuit) (r : MidMeasureMP) :
    r ∈ find_post_processed_mcms c ↔
      ((CircuitOp.mcm r ∈ c.operations ∧ r.postselect.isSome = true)
       ∨ ∃ tm ∈ c.measurements,
           (∃ mv, tm.mv = MVField.single mv ∧ r ∈ mv.measurements)
           ∨ (∃ mvs, tm.mv = MVField.list mvs ∧ ∃ mv ∈ mvs, r ∈ mv.measurements)) := by
  unfold find_post_processed_mcms
  rw [mem_foldl_union tmDeps _ tmDeps_step c.measurements _ r]
  have hbase : r ∈ (c.operations.filterMap (fun op =>
      match op with
      | CircuitOp.mcm m => if m.postselect.isSome then some m else none
      | CircuitOp.gate => none)).toFinset
      ↔ (CircuitOp.mcm r ∈ c.operations ∧ r.postselect.isSome = true) := by
    rw [List.mem_toFinset, List.mem_filterMap]
    constructor
    · rintro ⟨op, hop, hsome⟩
      cases op with
      | mcm m =>
        dsimp only at hsome
        by_cases hm : m.postselect.isSome = true
        · rw [if_pos hm] at hsome
          cases hsome
          exact ⟨hop, hm⟩
        · rw [if_neg hm] at hsome
          cases hsome
      | gate => cases hsome
    · rintro ⟨hop, hsome⟩
      exact ⟨CircuitOp.mcm r, hop, by dsimp only; rw [if_pos hsome]⟩
  rw [hbase]
  constructor
  · rintro (h | ⟨tm, htm, hdep⟩)
    · exact Or.inl h
    · exact Or.inr ⟨tm, htm, (tmDeps_mem tm r).mp hdep⟩
  · rintro (h | ⟨tm, htm, hdep⟩)
    · exact Or.inl h
    · exact Or.inr ⟨tm, htm, (tmDeps_mem tm r).mpr hdep⟩

theorem assert_results_ok (results : List AGVal) (names : List String)
    (hlen : results.length = names.length)
    (hdef : ∀ r ∈ results, r ≠ AGVal.undef) :
    assert_results results names = Except.ok results := by
  unfold assert_results
  rw [if_pos hlen]
  have hnone : (results.zip names).find? (fun rv => rv.1 == AGVal.undef) = none := by
    rw [List.find?_eq_none]
    rintro ⟨a, b⟩ hab
    have ha : a ∈ results := (List.of_mem_zip hab).1
    simp [hdef a ha]
  rw [hnone]

theorem assert_results_error (results : List AGVal) (names : List String)
    (hlen : results.length = names.length) (v : String)
    (hv : (AGVal.undef, v) ∈ results.zip names) :
    ∃ w, (AGVal.undef, w) ∈ results.zip names
      ∧ assert_results results names = Except.error (agMsg w) := by
  have hsome : ((results.zip names).find? (fun rv => rv.1 == AGVal.undef)).isSome := by
    rw [List.find?_isSome]
    exact ⟨(AGVal.undef, v), hv, by simp⟩
  obtain ⟨rv, hrv⟩ := Option.isSome_iff_exists.mp hsome
  have hpred := List.find?_some hrv
  have hmem : rv ∈ results.zip names := List.mem_of_find?_eq_some hrv
  have hfst : rv.1 = AGVal.undef := by simpa using hpred
  have hrw : rv = (AGVal.undef, rv.2) := by
    rw [← hfst]
  refine ⟨rv.2, hrw ▸ hmem, ?_⟩
  unfold assert_results
  rw [if_pos hlen, hrv]

theorem exists_zip_of_mem (a : AGVal) (l₁ : List AGVal) (l₂ : List String)
    (h : a ∈ l₁) (hlen : l₁.length = l₂.length) : ∃ b, (a, b) ∈ l₁.zip l₂ := by
  obtain ⟨i, hi, ha⟩ := List.getElem_of_mem h
  have hi2 : i < l₂.length := by omega
  have hi' : i < (l₁.zip l₂).length := by
    rw [List.length_zip]; omega
  refine ⟨l₂[i], ?_⟩
  have hz : (l₁.zip l₂)[i] = (l₁[i], l₂[i]) := List.getElem_zip
  have := List.getElem_mem hi'
  rw [hz, ha] at this
  exact this

/-- C9: in `if_stmt`, whenever some branch's asserted results contain the
`Undefined` marker for one of the tracked variables, a definedness error
is raised and its message names an offending (undefined) variable; when
every result of both branches is defined, `assert_results` passes the
results through unchanged and `if_stmt` returns the selected branch's
results. -/
theorem if_stmt_definedness (pred : Bool)
    (true_fn false_fn : List AGVal → List AGVal)
    (init_state : List AGVal) (symbol_names : List String)
    (h1 : (true_fn init_state).length = symbol_names.length)
    (h2 : (false_fn init_state).length = symbol_names.length) :
    ((∀ r ∈ true_fn init_state, r ≠ AGVal.undef) →
     (∀ r ∈ false_fn init_state, r ≠ AGVal.undef) →
      if_stmt pred true_fn false_fn init_state symbol_names
        = Except.ok (if pred then true_fn init_state else false_fn init_state))
    ∧ ((∃ v, (AGVal.undef, v) ∈ (true_fn init_state).zip symbol_names
          ∨ (AGVal.undef, v) ∈ (false_fn init_state).zip symbol_names) →
        ∃ w, ((AGVal.undef, w) ∈ (true_fn init_state).zip symbol_names
            ∨ (AGVal.undef, w) ∈ (false_fn init_state).zip symbol_names)
          ∧ if_stmt pred true_fn false_fn init_state symbol_names
              = Except.error (agMsg w)) := by
  constructor
  · intro ht hf
    unfold if_stmt
    rw [assert_results_ok _ _ h1 ht, assert_results_ok _ _ h2 hf]
  · rintro ⟨v, hv | hv⟩
    · obtain ⟨w, hw, he⟩ := assert_results_error _ _ h1 v hv
      refine ⟨w, Or.inl hw, ?_⟩
      unfold if_stmt
      rw [he]
    · by_cases hT : ∀ r ∈ true_fn init_state, r ≠ AGVal.undef
      · obtain ⟨w, hw, he⟩ := assert_results_error _ _ h2 v hv
        refine ⟨w, Or.inr hw, ?_⟩
        unfold if_stmt
        rw [assert_results_ok _ _ h1 hT, he]
      · push_neg at hT
        obtain ⟨r, hr, hru⟩ := hT
        subst hru
        obtain ⟨u, hu⟩ := exists_zip_of_mem AGVal.undef _ _ hr h1
        obtain ⟨w, hw, he⟩ := assert_results_error _ _ h1 u hu
        refine ⟨w, Or.inl hw, ?_⟩
        unfold if_stmt
        rw [he]

/-- Concrete instance of `if_stmt_definedness`: both branches define the
tracked variable, so the predicate selects the true branch's results. -/
theorem if_stmt_definedness_witness :
    if_stmt true (fun _ => [AGVal.val 1]) (fun _ => [AGVal.val 2]) []
      (["x"] : List String) = Except.ok [AGVal.val 1] := by
  have h := (if_stmt_definedness true (fun _ => [AGVal.val 1])
    (fun _ => [AGVal.val 2]) [] (["x"] : List String)
    (by decide) (by decide)).1 (by decide) (by decide)
  simpa using h
